import Mathlib

/-!
Verification of the in-memory calendar manager (`Calendar-Imp.py`).

The embedding is shallow: Python classes become Lean structures, in-place
mutation becomes explicit state passing (operations return `Bool × State`
mirroring the Python methods that mutate and return a boolean), and the two
Python `dict` containers (`CalendarsApp.users`, `User.calendars`) become
association lists with the dict operations `get` / `in` / assignment / `pop`
modelled key-by-key.  Timestamps (`datetime` in the source) are opaque to the
core logic — it never inspects them — so they are embedded as `Nat`.
The event/calendar factories (`DefaultEventFactory.create_event`,
`User.factory_create_calendar`) are behaviourally plain constructors and are
inlined as such.
-/

set_option autoImplicit false

namespace CalendarImp

/-! ### Association-list model of a Python `dict` -/

/-- Lookup `d[k]` returning `None` when absent (`dict.get`). -/
def dictGet {α : Type} : List (String × α) → String → Option α
  | [], _ => none
  | (k', v) :: rest, k => if k' = k then some v else dictGet rest k

/-- Containment test `k in d`. -/
def dictContains {α : Type} (d : List (String × α)) (k : String) : Bool :=
  (dictGet d k).isSome

/-- Assignment `d[k] = v`: replaces the value of an existing key in place, otherwise
appends the new binding at the end (Python dict insertion order). -/
def dictInsert {α : Type} : List (String × α) → String → α → List (String × α)
  | [], k, v => [(k, v)]
  | (k', v') :: rest, k, v =>
      if k' = k then (k, v) :: rest else (k', v') :: dictInsert rest k v

/-- Removal `d.pop(k, None)`, keeping only the resulting dict: removes the (unique)
binding of `k` if present. -/
def dictErase {α : Type} : List (String × α) → String → List (String × α)
  | [], _ => []
  | (k', v) :: rest, k =>
      if k' = k then rest else (k', v) :: dictErase rest k

/-- Lookup `d.get(k)` followed by mutating the found value in place: apply `f` to the
value bound to `k`, if any. -/
def dictModify {α : Type} : List (String × α) → String → (α → α) → List (String × α)
  | [], _, _ => []
  | (k', v) :: rest, k, f =>
      if k' = k then (k', f v) :: rest else (k', v) :: dictModify rest k f

/-! ### Event -/

/-- Class `Event`: title, start/end timestamps, description. -/
structure Event where
  title : String
  start_time : Nat
  end_time : Nat
  description : String
deriving DecidableEq, Repr

/-- Method `Event.update_event`: updates any provided fields of the event
(`None` arguments mean "leave unchanged"). -/
def Event.update_event (e : Event) (title : Option String) (start_time : Option Nat)
    (end_time : Option Nat) (description : Option String) : Event :=
  let e1 := match title with
    | some t => { e with title := t }
    | none => e
  let e2 := match start_time with
    | some s => { e1 with start_time := s }
    | none => e1
  let e3 := match end_time with
    | some t => { e2 with end_time := t }
    | none => e2
  match description with
    | some d => { e3 with description := d }
    | none => e3

/-- Method `Event.matches_title`: `self.title == title`. -/
def Event.matches_title (e : Event) (t : String) : Bool :=
  e.title == t

/-! ### Calendar -/

/-- Class `Calendar`: a name and an ordered list of events.  The
`event_factory` field is behaviourally the default `Event` constructor and is
not part of the observable state. -/
structure Calendar where
  name : String
  events : List Event
deriving DecidableEq, Repr

/-- Method `Calendar.add_event`: appends to the list. -/
def Calendar.add_event (c : Calendar) (e : Event) : Calendar :=
  { c with events := c.events ++ [e] }

/-- The scan loop of `Calendar.remove_event`: delete the first event whose
`matches_title` is true, reporting whether one was found. -/
def removeFirstEvent (t : String) : List Event → Bool × List Event
  | [] => (false, [])
  | e :: rest =>
      if e.matches_title t then (true, rest)
      else
        let r := removeFirstEvent t rest
        (r.1, e :: r.2)

/-- Method `Calendar.remove_event`: removes the first event matching the title;
returns whether an event was removed. -/
def Calendar.remove_event (c : Calendar) (t : String) : Bool × Calendar :=
  let r := removeFirstEvent t c.events
  (r.1, { c with events := r.2 })

/-- The scan loop of `Calendar.update_event`: apply `Event.update_event` to
the first event whose `matches_title` is true. -/
def updateFirstEvent (t : String) (ft : Option String) (fs fe : Option Nat)
    (fd : Option String) : List Event → Bool × List Event
  | [] => (false, [])
  | e :: rest =>
      if e.matches_title t then (true, e.update_event ft fs fe fd :: rest)
      else
        let r := updateFirstEvent t ft fs fe fd rest
        (r.1, e :: r.2)

/-- Method `Calendar.update_event`: finds the first event by title and updates its
fields; returns whether a match was found. -/
def Calendar.update_event (c : Calendar) (t : String) (ft : Option String)
    (fs fe : Option Nat) (fd : Option String) : Bool × Calendar :=
  let r := updateFirstEvent t ft fs fe fd c.events
  (r.1, { c with events := r.2 })

/-! ### User -/

/-- Class `User`: username and a dict of calendars keyed by name. -/
structure User where
  username : String
  calendars : List (String × Calendar)
deriving DecidableEq, Repr

/-- Method `User.factory_create_calendar`: `Calendar(calendar_name)` — a fresh empty
calendar. -/
def User.factory_create_calendar (_ : User) (calendar_name : String) : Calendar :=
  ⟨calendar_name, []⟩

/-- Method `User.create_calendar`: fails if the name exists, otherwise inserts a
fresh empty calendar built by the factory method. -/
def User.create_calendar (u : User) (calendar_name : String) : Bool × User :=
  if dictContains u.calendars calendar_name then (false, u)
  else
    let new_cal := u.factory_create_calendar calendar_name
    (true, { u with calendars := dictInsert u.calendars calendar_name new_cal })

/-- Method `User.remove_calendar`: `self.calendars.pop(calendar_name, None) is not None`. -/
def User.remove_calendar (u : User) (calendar_name : String) : Bool × User :=
  (dictContains u.calendars calendar_name,
   { u with calendars := dictErase u.calendars calendar_name })

/-- Method `User.update_calendar_name`: fails if `old_name` is absent or `new_name`
is taken; otherwise pops the old binding, rewrites the calendar's own `name`
attribute and inserts it under the new key. -/
def User.update_calendar_name (u : User) (old_name new_name : String) : Bool × User :=
  if !(dictContains u.calendars old_name) || dictContains u.calendars new_name then
    (false, u)
  else
    match dictGet u.calendars old_name with
    | none => (false, u)
    | some cal =>
        let renamed := { cal with name := new_name }
        (true, { u with calendars := dictInsert (dictErase u.calendars old_name) new_name renamed })

/-! ### CalendarsApp (the Directory) -/

/-- Class `CalendarsApp`: the top-level manager, a dict of users. -/
structure CalendarsApp where
  users : List (String × User)
deriving DecidableEq, Repr

/-- Constructor `CalendarsApp.__init__`: `self.users = {}`. -/
def CalendarsApp.init : CalendarsApp := ⟨[]⟩

/-- Method `CalendarsApp.create_user`: fails if the username exists, otherwise
inserts a fresh `User(username)`. -/
def CalendarsApp.create_user (app : CalendarsApp) (username : String) : Bool × CalendarsApp :=
  if dictContains app.users username then (false, app)
  else (true, { app with users := dictInsert app.users username ⟨username, []⟩ })

/-- Method `CalendarsApp.get_user`: `self.users.get(username)`. -/
def CalendarsApp.get_user (app : CalendarsApp) (username : String) : Option User :=
  dictGet app.users username

/-- Method `CalendarsApp.delete_user`: `self.users.pop(username, None) is not None`. -/
def CalendarsApp.delete_user (app : CalendarsApp) (username : String) : Bool × CalendarsApp :=
  (dictContains app.users username, { app with users := dictErase app.users username })

/-- Method `CalendarsApp.list_users`: `list(self.users.keys())`. -/
def CalendarsApp.list_users (app : CalendarsApp) : List String :=
  app.users.map Prod.fst

/-! ### Operation sequences

Sequences of calls against the directory (for the `create_user`/`delete_user`
net-effect property) and against a single user (for reachability of user
states), mirroring exactly the calls the menu front-end can make. -/

/-- A directory-level mutating call: `create_user` or `delete_user`. -/
inductive DirOp where
  | createU (name : String)
  | deleteU (name : String)
deriving DecidableEq, Repr

/-- Perform one directory call, keeping the resulting state. -/
def CalendarsApp.applyDirOp (app : CalendarsApp) : DirOp → CalendarsApp
  | .createU n => (app.create_user n).2
  | .deleteU n => (app.delete_user n).2

/-- Perform a sequence of directory calls in order. -/
def CalendarsApp.runDirOps (app : CalendarsApp) (ops : List DirOp) : CalendarsApp :=
  ops.foldl CalendarsApp.applyDirOp app

/-- Spec-side definition (for the refinement claim about `get_user`): the net
insertion status of `name` after a sequence of calls, starting from status
`b`: a `create_user name` call leaves the name inserted, a `delete_user name`
call leaves it removed, calls on other names do not affect it. -/
def netInsertedFrom (b : Bool) (ops : List DirOp) (name : String) : Bool :=
  ops.foldl
    (fun st op =>
      match op with
      | .createU m => if m = name then true else st
      | .deleteU m => if m = name then false else st)
    b

/-- Spec-side: the net effect of a call sequence on a fresh directory leaves
`name` inserted. -/
def netInserted (ops : List DirOp) (name : String) : Bool :=
  netInsertedFrom false ops name

/-- A user-level mutating call, as reachable from the menu: calendar CRUD on
the user, or event CRUD on one of the user's calendars looked up by name. -/
inductive UserOp where
  | createCal (name : String)
  | removeCal (name : String)
  | renameCal (old_name new_name : String)
  | addEvt (cal_name : String) (e : Event)
  | removeEvt (cal_name : String) (title : String)
  | updateEvt (cal_name : String) (title : String)
      (ft : Option String) (fs fe : Option Nat) (fd : Option String)
deriving DecidableEq, Repr

/-- Perform one user-level call, keeping the resulting state. -/
def User.applyUserOp (u : User) : UserOp → User
  | .createCal n => (u.create_calendar n).2
  | .removeCal n => (u.remove_calendar n).2
  | .renameCal o n => (u.update_calendar_name o n).2
  | .addEvt c e => { u with calendars := dictModify u.calendars c (fun cal => cal.add_event e) }
  | .removeEvt c t =>
      { u with calendars := dictModify u.calendars c (fun cal => (cal.remove_event t).2) }
  | .updateEvt c t ft fs fe fd =>
      { u with calendars :=
          dictModify u.calendars c (fun cal => (cal.update_event t ft fs fe fd).2) }

/-- Perform a sequence of user-level calls in order. -/
def User.runUserOps (u : User) (ops : List UserOp) : User :=
  ops.foldl User.applyUserOp u

/-- The key/name consistency invariant: every calendar stored under key `k`
has its own `name` attribute equal to `k`. -/
def User.calendarNamesConsistent (u : User) : Prop :=
  ∀ p ∈ u.calendars, p.2.name = p.1

/-! ### Lemmas about the dict model -/

theorem dictGet_eq_none_iff {α : Type} (d : List (String × α)) (k : String) :
    dictGet d k = none ↔ k ∉ d.map Prod.fst := by
  induction d with
  | nil => simp [dictGet]
  | cons p rest ih =>
      obtain ⟨k', v⟩ := p
      by_cases h : k' = k
      · subst h
        simp [dictGet]
      · have h2 : k ≠ k' := fun hh => h hh.symm
        simp only [dictGet, if_neg h, List.map_cons, List.mem_cons, not_or, ih]
        tauto

theorem dictContains_eq_false_iff {α : Type} (d : List (String × α)) (k : String) :
    dictContains d k = false ↔ k ∉ d.map Prod.fst := by
  rw [← dictGet_eq_none_iff]
  cases h : dictGet d k <;> simp [dictContains, h]

theorem dictContains_eq_true_iff {α : Type} (d : List (String × α)) (k : String) :
    dictContains d k = true ↔ k ∈ d.map Prod.fst := by
  have h := dictContains_eq_false_iff d k
  cases hc : dictContains d k <;> simp_all

theorem dictErase_of_not_mem {α : Type} (d : List (String × α)) (k : String)
    (h : k ∉ d.map Prod.fst) : dictErase d k = d := by
  induction d with
  | nil => rfl
  | cons p rest ih =>
      obtain ⟨k', v⟩ := p
      simp only [List.map_cons, List.mem_cons, not_or] at h
      simp [dictErase, Ne.symm h.1, ih h.2]

theorem dictInsert_of_not_mem {α : Type} (d : List (String × α)) (k : String) (v : α)
    (h : k ∉ d.map Prod.fst) : dictInsert d k v = d ++ [(k, v)] := by
  induction d with
  | nil => rfl
  | cons p rest ih =>
      obtain ⟨k', v'⟩ := p
      simp only [List.map_cons, List.mem_cons, not_or] at h
      simp [dictInsert, Ne.symm h.1, ih h.2]

theorem dictGet_append {α : Type} (d1 d2 : List (String × α)) (k : String) :
    dictGet (d1 ++ d2) k =
      match dictGet d1 k with
      | some v => some v
      | none => dictGet d2 k := by
  induction d1 with
  | nil => simp [dictGet]
  | cons p rest ih =>
      obtain ⟨k', v⟩ := p
      by_cases h : k' = k <;> simp [dictGet, h, ih]

theorem dictGet_dictInsert_self {α : Type} (d : List (String × α)) (k : String) (v : α) :
    dictGet (dictInsert d k v) k = some v := by
  induction d with
  | nil => simp [dictInsert, dictGet]
  | cons p rest ih =>
      obtain ⟨k', v'⟩ := p
      by_cases h : k' = k <;> simp [dictInsert, dictGet, h, ih]

theorem dictContains_dictInsert_self {α : Type} (d : List (String × α)) (k : String) (v : α) :
    dictContains (dictInsert d k v) k = true := by
  simp [dictContains, dictGet_dictInsert_self]

theorem keys_dictErase_sublist {α : Type} (d : List (String × α)) (k : String) :
    ((dictErase d k).map Prod.fst).Sublist (d.map Prod.fst) := by
  induction d with
  | nil => simp [dictErase]
  | cons p rest ih =>
      obtain ⟨k', v⟩ := p
      by_cases h : k' = k
      · simp [dictErase, h]
      · simp only [dictErase, if_neg h, List.map_cons, List.cons_sublist_cons]
        exact ih

theorem dictErase_sublist {α : Type} (d : List (String × α)) (k : String) :
    (dictErase d k).Sublist d := by
  induction d with
  | nil => simp [dictErase]
  | cons p rest ih =>
      obtain ⟨k', v⟩ := p
      by_cases h : k' = k
      · simp [dictErase, h]
      · simp only [dictErase, if_neg h, List.cons_sublist_cons]
        exact ih

theorem dictGet_dictErase {α : Type} (d : List (String × α)) (k n : String)
    (hnd : (d.map Prod.fst).Nodup) :
    dictGet (dictErase d k) n = if k = n then none else dictGet d n := by
  induction d with
  | nil => simp [dictErase, dictGet]
  | cons p rest ih =>
      obtain ⟨k', v⟩ := p
      simp only [List.map_cons, List.nodup_cons] at hnd
      by_cases hk : k' = k
      · subst hk
        by_cases hn : k' = n
        · subst hn
          simp [dictErase, (dictGet_eq_none_iff rest k').mpr hnd.1]
        · simp [dictErase, dictGet, hn]
      · by_cases hn : k' = n
        · have hkn : k ≠ n := fun h => hk (hn.trans h.symm)
          have hnk : ¬n = k := fun h => hk (hn.trans h)
          simp [dictErase, dictGet, hk, hn, hkn, hnk]
        · simp [dictErase, dictGet, hk, hn, ih hnd.2]

/-! ### Lemmas about the event-scan loops -/

theorem Event.update_event_all_none (e : Event) :
    e.update_event none none none none = e := rfl

theorem removeFirstEvent_eq_of_not_found (t : String) (l : List Event)
    (h : (removeFirstEvent t l).1 = false) : (removeFirstEvent t l).2 = l := by
  induction l with
  | nil => rfl
  | cons e rest ih =>
      by_cases hm : e.matches_title t = true
      · simp [removeFirstEvent, hm] at h
      · simp only [Bool.not_eq_true] at hm
        simp only [removeFirstEvent, hm, Bool.false_eq_true, if_false] at h ⊢
        exact congrArg (e :: ·) (ih h)

theorem updateFirstEvent_eq_of_not_found (t : String) (ft : Option String) (fs fe : Option Nat)
    (fd : Option String) (l : List Event)
    (h : (updateFirstEvent t ft fs fe fd l).1 = false) :
    (updateFirstEvent t ft fs fe fd l).2 = l := by
  induction l with
  | nil => rfl
  | cons e rest ih =>
      by_cases hm : e.matches_title t = true
      · simp [updateFirstEvent, hm] at h
      · simp only [Bool.not_eq_true] at hm
        simp only [updateFirstEvent, hm, Bool.false_eq_true, if_false] at h ⊢
        exact congrArg (e :: ·) (ih h)

theorem updateFirstEvent_fst (t : String) (ft : Option String) (fs fe : Option Nat)
    (fd : Option String) (l : List Event) :
    (updateFirstEvent t ft fs fe fd l).1 = l.any (fun e => e.matches_title t) := by
  induction l with
  | nil => rfl
  | cons e rest ih =>
      by_cases hm : e.matches_title t = true <;> simp [updateFirstEvent, hm, ih]

theorem updateFirstEvent_all_none (t : String) (l : List Event) :
    updateFirstEvent t none none none none l = (l.any (fun e => e.matches_title t), l) := by
  induction l with
  | nil => rfl
  | cons e rest ih =>
      by_cases hm : e.matches_title t = true <;>
        simp [updateFirstEvent, hm, ih, Event.update_event_all_none]

theorem removeFirstEvent_append (t : String) (l1 l2 : List Event) (e : Event)
    (hl1 : ∀ x ∈ l1, x.matches_title t = false) (he : e.matches_title t = true) :
    removeFirstEvent t (l1 ++ e :: l2) = (true, l1 ++ l2) := by
  induction l1 with
  | nil => simp [removeFirstEvent, he]
  | cons x rest ih =>
      have hx : x.matches_title t = false := hl1 x (by simp)
      have hrest : ∀ y ∈ rest, y.matches_title t = false := fun y hy => hl1 y (by simp [hy])
      simp [removeFirstEvent, hx, ih hrest]

theorem updateFirstEvent_append (t : String) (ft : Option String) (fs fe : Option Nat)
    (fd : Option String) (l1 l2 : List Event) (e : Event)
    (hl1 : ∀ x ∈ l1, x.matches_title t = false) (he : e.matches_title t = true) :
    updateFirstEvent t ft fs fe fd (l1 ++ e :: l2) =
      (true, l1 ++ e.update_event ft fs fe fd :: l2) := by
  induction l1 with
  | nil => simp [updateFirstEvent, he]
  | cons x rest ih =>
      have hx : x.matches_title t = false := hl1 x (by simp)
      have hrest : ∀ y ∈ rest, y.matches_title t = false := fun y hy => hl1 y (by simp [hy])
      simp [updateFirstEvent, hx, ih hrest]

/-! ### Claim theorems -/

/-- C4: for every user and every pair of names with `old = new`,
`update_calendar_name` returns `False` (and leaves the user unchanged),
whether or not a calendar of that name exists: renaming a calendar to its own
current name always fails. -/
theorem claim_C4_rename_to_same_name_fails (u : User) (n : String) :
    u.update_calendar_name n n = (false, u) := by
  cases hc : dictContains u.calendars n <;> simp [User.update_calendar_name, hc]

/-- C6: calling `create_user` twice in a row with the same name makes the
second call return `False` and leaves the number of users unchanged from
after the first call. -/
theorem claim_C6_double_create_user (app : CalendarsApp) (n : String) :
    ((app.create_user n).2.create_user n).1 = false ∧
    ((app.create_user n).2.create_user n).2.users.length =
      (app.create_user n).2.users.length := by
  have hfail : ∀ a : CalendarsApp, dictContains a.users n = true → a.create_user n = (false, a) :=
    fun a ha => by simp [CalendarsApp.create_user, ha]
  have hc : dictContains (app.create_user n).2.users n = true := by
    by_cases h : dictContains app.users n
    · simp [CalendarsApp.create_user, h]
    · simp [CalendarsApp.create_user, h, dictContains_dictInsert_self]
  rw [hfail _ hc]
  exact ⟨rfl, rfl⟩

/-- C8: calling `Event.update_event` with only the description provided sets the
description and leaves title, start and end unchanged; in general each field
is overwritten when provided and kept when not provided. -/
theorem claim_C8_update_event_fields (e : Event) (ft : Option String) (fs fe : Option Nat)
    (fd : Option String) (d : String) :
    e.update_event none none none (some d) = { e with description := d } ∧
    (e.update_event ft fs fe fd).title = ft.getD e.title ∧
    (e.update_event ft fs fe fd).start_time = fs.getD e.start_time ∧
    (e.update_event ft fs fe fd).end_time = fe.getD e.end_time ∧
    (e.update_event ft fs fe fd).description = fd.getD e.description := by
  refine ⟨rfl, ?_, ?_, ?_, ?_⟩ <;> cases ft <;> cases fs <;> cases fe <;> cases fd <;> rfl

/-- C10: on a calendar containing an event with the given title,
`update_event` with no update fields returns `True` while leaving the
calendar (every event included) completely unchanged. -/
theorem claim_C10_update_with_no_fields (c : Calendar) (t : String)
    (h : c.events.any (fun e => e.matches_title t) = true) :
    c.update_event t none none none none = (true, c) := by
  simp [Calendar.update_event, updateFirstEvent_all_none, h]

theorem claim_C10_witness :
    Calendar.update_event ⟨"cal", [⟨"a", 0, 1, ""⟩]⟩ "a" none none none none =
      (true, ⟨"cal", [⟨"a", 0, 1, ""⟩]⟩) :=
  claim_C10_update_with_no_fields ⟨"cal", [⟨"a", 0, 1, ""⟩]⟩ "a" (by decide)

/-- C2: every mutating operation at any level that returns `False` leaves the
state it operates on exactly as it was before the call — a failed lookup or a
collision never partially mutates. -/
theorem claim_C2_failed_mutations_leave_state_unchanged :
    (∀ (app : CalendarsApp) (n : String),
      (app.create_user n).1 = false → (app.create_user n).2 = app) ∧
    (∀ (app : CalendarsApp) (n : String),
      (app.delete_user n).1 = false → (app.delete_user n).2 = app) ∧
    (∀ (u : User) (n : String),
      (u.create_calendar n).1 = false → (u.create_calendar n).2 = u) ∧
    (∀ (u : User) (n : String),
      (u.remove_calendar n).1 = false → (u.remove_calendar n).2 = u) ∧
    (∀ (u : User) (o n : String),
      (u.update_calendar_name o n).1 = false → (u.update_calendar_name o n).2 = u) ∧
    (∀ (c : Calendar) (t : String),
      (c.remove_event t).1 = false → (c.remove_event t).2 = c) ∧
    (∀ (c : Calendar) (t : String) (ft : Option String) (fs fe : Option Nat) (fd : Option String),
      (c.update_event t ft fs fe fd).1 = false → (c.update_event t ft fs fe fd).2 = c) := by
  refine ⟨?_, ?_, ?_, ?_, ?_, ?_, ?_⟩
  · intro app n h
    by_cases hc : dictContains app.users n
    · simp [CalendarsApp.create_user, hc]
    · simp [CalendarsApp.create_user, hc] at h
  · intro app n h
    have hm : n ∉ app.users.map Prod.fst := (dictContains_eq_false_iff _ _).mp h
    simp [CalendarsApp.delete_user, dictErase_of_not_mem _ _ hm]
  · intro u n h
    by_cases hc : dictContains u.calendars n
    · simp [User.create_calendar, hc]
    · simp [User.create_calendar, hc] at h
  · intro u n h
    have hm : n ∉ u.calendars.map Prod.fst := (dictContains_eq_false_iff _ _).mp h
    simp [User.remove_calendar, dictErase_of_not_mem _ _ hm]
  · intro u o n h
    by_cases hc : (!dictContains u.calendars o || dictContains u.calendars n) = true
    · simp [User.update_calendar_name, hc]
    · cases hg : dictGet u.calendars o with
      | none =>
          exact absurd (by simp [dictContains, hg]) hc
      | some cal =>
          simp [User.update_calendar_name, hc, hg] at h
  · intro c t h
    have h1 : (removeFirstEvent t c.events).1 = false := h
    simp [Calendar.remove_event, removeFirstEvent_eq_of_not_found t c.events h1]
  · intro c t ft fs fe fd h
    have h1 : (updateFirstEvent t ft fs fe fd c.events).1 = false := h
    simp [Calendar.update_event, updateFirstEvent_eq_of_not_found t ft fs fe fd c.events h1]

theorem claim_C2_witness :
    ((CalendarsApp.mk [("a", ⟨"a", []⟩)]).create_user "a").2 =
      CalendarsApp.mk [("a", ⟨"a", []⟩)] ∧
    (CalendarsApp.init.delete_user "a").2 = CalendarsApp.init ∧
    ((User.mk "u" [("c", ⟨"c", []⟩)]).create_calendar "c").2 = User.mk "u" [("c", ⟨"c", []⟩)] ∧
    ((User.mk "u" []).remove_calendar "c").2 = User.mk "u" [] ∧
    ((User.mk "u" []).update_calendar_name "a" "b").2 = User.mk "u" [] ∧
    ((Calendar.mk "c" [⟨"a", 0, 1, ""⟩]).remove_event "x").2 = Calendar.mk "c" [⟨"a", 0, 1, ""⟩] ∧
    ((Calendar.mk "c" [⟨"a", 0, 1, ""⟩]).update_event "x" none none none (some "d")).2 =
      Calendar.mk "c" [⟨"a", 0, 1, ""⟩] := by
  refine ⟨?_, ?_, ?_, ?_, ?_, ?_, ?_⟩
  · exact claim_C2_failed_mutations_leave_state_unchanged.1 _ "a" (by decide)
  · exact claim_C2_failed_mutations_leave_state_unchanged.2.1 _ "a" (by decide)
  · exact claim_C2_failed_mutations_leave_state_unchanged.2.2.1 _ "c" (by decide)
  · exact claim_C2_failed_mutations_leave_state_unchanged.2.2.2.1 _ "c" (by decide)
  · exact claim_C2_failed_mutations_leave_state_unchanged.2.2.2.2.1 _ "a" "b" (by decide)
  · exact claim_C2_failed_mutations_leave_state_unchanged.2.2.2.2.2.1 _ "x" (by decide)
  · exact claim_C2_failed_mutations_leave_state_unchanged.2.2.2.2.2.2 _ "x" none none none
      (some "d") (by decide)

/-- C3: on a calendar holding two or more events with the same title,
`remove_event` removes only the earliest-inserted matching event and returns
`True`; all other events, later duplicates included, remain in their original
relative order. -/
theorem claim_C3_remove_earliest_duplicate (c : Calendar) (t : String) (l1 l2 : List Event)
    (e : Event) (hsplit : c.events = l1 ++ e :: l2)
    (hl1 : ∀ x ∈ l1, x.matches_title t = false)
    (he : e.matches_title t = true)
    (_hdup : l2.any (fun x => x.matches_title t) = true) :
    c.remove_event t = (true, { c with events := l1 ++ l2 }) := by
  simp [Calendar.remove_event, hsplit, removeFirstEvent_append t l1 l2 e hl1 he]

theorem claim_C3_witness :
    Calendar.remove_event ⟨"c", [⟨"a", 0, 1, "x"⟩, ⟨"b", 0, 1, ""⟩, ⟨"a", 2, 3, "y"⟩]⟩ "a" =
      (true, ⟨"c", [⟨"b", 0, 1, ""⟩, ⟨"a", 2, 3, "y"⟩]⟩) :=
  claim_C3_remove_earliest_duplicate
    ⟨"c", [⟨"a", 0, 1, "x"⟩, ⟨"b", 0, 1, ""⟩, ⟨"a", 2, 3, "y"⟩]⟩ "a"
    [] [⟨"b", 0, 1, ""⟩, ⟨"a", 2, 3, "y"⟩] ⟨"a", 0, 1, "x"⟩
    rfl (by decide) (by decide) (by decide)

/-- C7: after a successful `remove_calendar`, a `create_calendar` with the
same name succeeds, and the calendar now stored under that name is a fresh
empty one — no events are left over from the removed calendar.  (The key
uniqueness of the `calendars` dict is the `Nodup` hypothesis.) -/
theorem claim_C7_recreate_after_remove (u : User) (n : String)
    (hnd : (u.calendars.map Prod.fst).Nodup)
    (_hrm : (u.remove_calendar n).1 = true) :
    ((u.remove_calendar n).2.create_calendar n).1 = true ∧
    dictGet ((u.remove_calendar n).2.create_calendar n).2.calendars n = some ⟨n, []⟩ := by
  have hge : dictGet (dictErase u.calendars n) n = none := by
    rw [dictGet_dictErase u.calendars n n hnd]
    simp
  have hce : dictContains (dictErase u.calendars n) n = false := by
    simp [dictContains, hge]
  constructor
  · simp [User.remove_calendar, User.create_calendar, hce]
  · simp [User.remove_calendar, User.create_calendar, hce, User.factory_create_calendar,
      dictGet_dictInsert_self]

theorem claim_C7_witness :
    (((User.mk "alice" [("work", ⟨"work", [⟨"standup", 0, 1, ""⟩]⟩)]).remove_calendar
        "work").2.create_calendar "work").1 = true ∧
    dictGet (((User.mk "alice" [("work", ⟨"work", [⟨"standup", 0, 1, ""⟩]⟩)]).remove_calendar
        "work").2.create_calendar "work").2.calendars "work" = some ⟨"work", []⟩ :=
  claim_C7_recreate_after_remove (User.mk "alice" [("work", ⟨"work", [⟨"standup", 0, 1, ""⟩]⟩)])
    "work" (by decide) (by decide)

/-- C9: method `Calendar.update_event` returns `True` iff some event in the list has
exactly the given title (case-sensitive string equality), and it applies the
field updates to only the first (lowest-index) matching event, leaving every
other event — later duplicates included — unchanged. -/
theorem claim_C9_update_first_match (c : Calendar) (t : String) (ft : Option String)
    (fs fe : Option Nat) (fd : Option String) :
    ((c.update_event t ft fs fe fd).1 = true ↔ ∃ x ∈ c.events, x.title = t) ∧
    (∀ (l1 l2 : List Event) (e : Event), c.events = l1 ++ e :: l2 →
      (∀ x ∈ l1, x.matches_title t = false) → e.matches_title t = true →
      (c.update_event t ft fs fe fd).2 =
        { c with events := l1 ++ e.update_event ft fs fe fd :: l2 }) := by
  constructor
  · have h1 : (c.update_event t ft fs fe fd).1 = c.events.any (fun e => e.matches_title t) :=
      updateFirstEvent_fst t ft fs fe fd c.events
    rw [h1, List.any_eq_true]
    simp [Event.matches_title]
  · intro l1 l2 e hsplit hl1 he
    simp [Calendar.update_event, hsplit, updateFirstEvent_append t ft fs fe fd l1 l2 e hl1 he]

theorem claim_C9_witness :
    ((Calendar.mk "c" [⟨"a", 0, 1, ""⟩, ⟨"a", 2, 3, "z"⟩]).update_event
        "a" none none none (some "d")).1 = true ∧
    ((Calendar.mk "c" [⟨"a", 0, 1, ""⟩, ⟨"a", 2, 3, "z"⟩]).update_event
        "a" none none none (some "d")).2 =
      Calendar.mk "c" [⟨"a", 0, 1, "d"⟩, ⟨"a", 2, 3, "z"⟩] := by
  constructor
  · exact (claim_C9_update_first_match (Calendar.mk "c" [⟨"a", 0, 1, ""⟩, ⟨"a", 2, 3, "z"⟩])
      "a" none none none (some "d")).1.mpr ⟨⟨"a", 0, 1, ""⟩, by decide, rfl⟩
  · exact (claim_C9_update_first_match (Calendar.mk "c" [⟨"a", 0, 1, ""⟩, ⟨"a", 2, 3, "z"⟩])
      "a" none none none (some "d")).2 [] [⟨"a", 2, 3, "z"⟩] ⟨"a", 0, 1, ""⟩ rfl
      (by decide) (by decide)

/-! ### Preservation of the name/key consistency invariant (C5) -/

theorem consistent_dictInsert (d : List (String × Calendar)) (k : String) (v : Calendar)
    (hd : ∀ p ∈ d, p.2.name = p.1) (hv : v.name = k) :
    ∀ p ∈ dictInsert d k v, p.2.name = p.1 := by
  induction d with
  | nil =>
      intro p hp
      simp only [dictInsert, List.mem_singleton] at hp
      subst hp
      exact hv
  | cons q rest ih =>
      obtain ⟨k', v'⟩ := q
      have hd' : ∀ p ∈ rest, p.2.name = p.1 := fun p hp => hd p (List.mem_cons_of_mem _ hp)
      intro p hp
      by_cases h : k' = k
      · simp only [dictInsert, if_pos h] at hp
        rcases List.mem_cons.mp hp with h1 | h1
        · subst h1
          exact hv
        · exact hd p (List.mem_cons_of_mem _ h1)
      · simp only [dictInsert, if_neg h] at hp
        rcases List.mem_cons.mp hp with h1 | h1
        · subst h1
          exact hd (k', v') (List.mem_cons_self _ _)
        · exact ih hd' p h1

theorem consistent_dictErase (d : List (String × Calendar)) (k : String)
    (hd : ∀ p ∈ d, p.2.name = p.1) :
    ∀ p ∈ dictErase d k, p.2.name = p.1 :=
  fun p hp => hd p ((dictErase_sublist d k).subset hp)

theorem consistent_dictModify (d : List (String × Calendar)) (k : String)
    (f : Calendar → Calendar) (hd : ∀ p ∈ d, p.2.name = p.1)
    (hf : ∀ cal, (f cal).name = cal.name) :
    ∀ p ∈ dictModify d k f, p.2.name = p.1 := by
  induction d with
  | nil =>
      intro p hp
      simp [dictModify] at hp
  | cons q rest ih =>
      obtain ⟨k', v'⟩ := q
      have hd' : ∀ p ∈ rest, p.2.name = p.1 := fun p hp => hd p (List.mem_cons_of_mem _ hp)
      intro p hp
      by_cases h : k' = k
      · simp only [dictModify, if_pos h] at hp
        rcases List.mem_cons.mp hp with h1 | h1
        · subst h1
          simpa [hf] using hd (k', v') (List.mem_cons_self _ _)
        · exact hd p (List.mem_cons_of_mem _ h1)
      · simp only [dictModify, if_neg h] at hp
        rcases List.mem_cons.mp hp with h1 | h1
        · subst h1
          exact hd (k', v') (List.mem_cons_self _ _)
        · exact ih hd' p h1

theorem applyUserOp_preserves_consistency (u : User) (op : UserOp)
    (hu : u.calendarNamesConsistent) : (u.applyUserOp op).calendarNamesConsistent := by
  cases op with
  | createCal n =>
      by_cases h : dictContains u.calendars n
      · simpa [User.applyUserOp, User.create_calendar, h] using hu
      · intro p hp
        refine consistent_dictInsert u.calendars n ⟨n, []⟩ hu rfl p ?_
        simpa [User.applyUserOp, User.create_calendar, h, User.factory_create_calendar] using hp
  | removeCal n =>
      intro p hp
      refine consistent_dictErase u.calendars n hu p ?_
      simpa [User.applyUserOp, User.remove_calendar] using hp
  | renameCal o n =>
      by_cases h : (!dictContains u.calendars o || dictContains u.calendars n) = true
      · simpa [User.applyUserOp, User.update_calendar_name, h] using hu
      · cases hg : dictGet u.calendars o with
        | none => simpa [User.applyUserOp, User.update_calendar_name, h, hg] using hu
        | some cal =>
            intro p hp
            refine consistent_dictInsert (dictErase u.calendars o) n { cal with name := n }
              (consistent_dictErase u.calendars o hu) rfl p ?_
            simpa [User.applyUserOp, User.update_calendar_name, h, hg] using hp
  | addEvt c e =>
      intro p hp
      refine consistent_dictModify u.calendars c (fun cal => cal.add_event e) hu
        (fun cal => rfl) p ?_
      simpa [User.applyUserOp] using hp
  | removeEvt c t =>
      intro p hp
      refine consistent_dictModify u.calendars c (fun cal => (cal.remove_event t).2) hu
        (fun cal => rfl) p ?_
      simpa [User.applyUserOp] using hp
  | updateEvt c t ft fs fe fd =>
      intro p hp
      refine consistent_dictModify u.calendars c
        (fun cal => (cal.update_event t ft fs fe fd).2) hu (fun cal => rfl) p ?_
      simpa [User.applyUserOp] using hp

theorem runUserOps_preserves_consistency (ops : List UserOp) :
    ∀ u : User, u.calendarNamesConsistent → (u.runUserOps ops).calendarNamesConsistent := by
  induction ops with
  | nil => exact fun u hu => hu
  | cons op rest ih =>
      intro u hu
      exact ih (u.applyUserOp op) (applyUserOp_preserves_consistency u op hu)

/-- C5: in every reachable user state — a fresh user followed by any sequence
of calendar/event operations — each calendar stored in the `calendars`
mapping under key `k` has its internal `name` attribute equal to `k`; in
particular every successful `update_calendar_name` and `create_calendar`
re-establishes the consistency and every other operation preserves it. -/
theorem claim_C5_calendar_name_key_consistent (username : String) (ops : List UserOp) :
    ((User.mk username []).runUserOps ops).calendarNamesConsistent :=
  runUserOps_preserves_consistency ops (User.mk username [])
    (fun p hp => absurd hp (List.not_mem_nil p))

/-! ### Net effect of create_user / delete_user sequences (C1) -/

theorem create_user_keys_nodup (app : CalendarsApp) (n : String)
    (h : (app.users.map Prod.fst).Nodup) :
    ((app.create_user n).2.users.map Prod.fst).Nodup := by
  by_cases hc : dictContains app.users n
  · simpa [CalendarsApp.create_user, hc] using h
  · have hm : n ∉ app.users.map Prod.fst :=
      (dictContains_eq_false_iff _ _).mp (by simpa using hc)
    simp [CalendarsApp.create_user, hc, dictInsert_of_not_mem _ _ _ hm, List.nodup_append, h, hm]

theorem delete_user_keys_nodup (app : CalendarsApp) (n : String)
    (h : (app.users.map Prod.fst).Nodup) :
    ((app.delete_user n).2.users.map Prod.fst).Nodup :=
  (keys_dictErase_sublist app.users n).nodup h

theorem get_user_after_create (app : CalendarsApp) (m name : String) :
    ((app.create_user m).2.get_user name).isSome =
      if m = name then true else (app.get_user name).isSome := by
  by_cases hc : dictContains app.users m
  · have h2 : (app.create_user m).2 = app := by simp [CalendarsApp.create_user, hc]
    rw [h2]
    by_cases hmn : m = name
    · subst hmn
      simpa [CalendarsApp.get_user, dictContains] using hc
    · simp [hmn]
  · have hm : m ∉ app.users.map Prod.fst :=
      (dictContains_eq_false_iff _ _).mp (by simpa using hc)
    have h2 : (app.create_user m).2 = { app with users := app.users ++ [(m, ⟨m, []⟩)] } := by
      simp [CalendarsApp.create_user, hc, dictInsert_of_not_mem _ _ _ hm]
    rw [h2]
    show (dictGet (app.users ++ [(m, ⟨m, []⟩)]) name).isSome = _
    rw [dictGet_append]
    by_cases hmn : m = name
    · subst hmn
      cases hg : dictGet app.users m <;> simp [dictGet, hg]
    · cases hg : dictGet app.users name <;> simp [dictGet, hg, hmn, CalendarsApp.get_user]

theorem get_user_after_delete (app : CalendarsApp) (m name : String)
    (h : (app.users.map Prod.fst).Nodup) :
    ((app.delete_user m).2.get_user name).isSome =
      if m = name then false else (app.get_user name).isSome := by
  show (dictGet (dictErase app.users m) name).isSome = _
  rw [dictGet_dictErase app.users m name h]
  by_cases hmn : m = name <;> simp [hmn, CalendarsApp.get_user]

theorem runDirOps_status (ops : List DirOp) :
    ∀ app : CalendarsApp, (app.users.map Prod.fst).Nodup → ∀ name : String,
      ((app.runDirOps ops).get_user name).isSome =
        netInsertedFrom ((app.get_user name).isSome) ops name := by
  induction ops with
  | nil => exact fun app _ name => rfl
  | cons op rest ih =>
      intro app h name
      cases op with
      | createU m =>
          have hstep := create_user_keys_nodup app m h
          have hrun : app.runDirOps (DirOp.createU m :: rest) =
              ((app.create_user m).2).runDirOps rest := rfl
          rw [hrun, ih _ hstep name, get_user_after_create app m name]
          rfl
      | deleteU m =>
          have hstep := delete_user_keys_nodup app m h
          have hrun : app.runDirOps (DirOp.deleteU m :: rest) =
              ((app.delete_user m).2).runDirOps rest := rfl
          rw [hrun, ih _ hstep name, get_user_after_delete app m name h]
          rfl

/-- C1: for every sequence of `create_user` / `delete_user` calls on a fresh
`CalendarsApp` and every username, `get_user` finds a user exactly when the
net effect of the sequence leaves that name inserted in the `users` mapping
(the last operation touching the name was a create). -/
theorem claim_C1_get_user_iff_net_inserted (ops : List DirOp) (name : String) :
    ((CalendarsApp.init.runDirOps ops).get_user name).isSome = netInserted ops name := by
  have h := runDirOps_status ops CalendarsApp.init (by simp [CalendarsApp.init]) name
  simpa [CalendarsApp.init, CalendarsApp.get_user, dictGet, netInserted] using h
